import Mathlib

/-!
Shallow embedding of the neural style transfer notebook
(src/Chapter12_generative-dl/part03_neural-style-transfer/neural-style-transfer.ipynb).

Tensors are embedded as rational-valued functions on natural-number indices,
with explicit dimensions; `tf.reduce_sum` over a tensor becomes a finite sum
over the index ranges.  The fractional power `tf.pow(..., 1.25)` of the total
variation loss is embedded as the real power `Real.rpow`, so that loss lives
in `ℝ`; all other losses are exact rational computations.  The pretrained
VGG19 feature extractor is a fixed external network, so losses that consume
layer activations are parameterised by those activation tensors.

In the notebook, `img_height = 400` and `img_width` is computed from the
downloaded content image's aspect ratio; both are kept as explicit parameters
of the functions that read them as globals (`style_loss`,
`total_variation_loss`, `compute_loss`).
-/

namespace StyleTransfer

/-- Embedding of `content_loss(base_img, combination_img) =
tf.reduce_sum(tf.square(combination_img - base_img))` for activation tensors
of shape `H × W × C`. -/
def content_loss (H W C : ℕ) (base_img combination_img : ℕ → ℕ → ℕ → ℚ) : ℚ :=
  ∑ i ∈ Finset.range H, ∑ j ∈ Finset.range W, ∑ c ∈ Finset.range C,
    (combination_img i j c - base_img i j c) ^ 2

/-- Embedding of `gram_matrix(x)`: the input of shape `H × W × C` is
transposed to channels-first, each channel is flattened to a row of length
`H·W`, and the matrix is multiplied by its own transpose.  Entry `(c₁, c₂)`
is therefore the inner product of the flattened feature maps of channels
`c₁` and `c₂`. -/
def gram_matrix (H W C : ℕ) (x : ℕ → ℕ → ℕ → ℚ) : Matrix (Fin C) (Fin C) ℚ :=
  Matrix.of fun c₁ c₂ =>
    ∑ i ∈ Finset.range H, ∑ j ∈ Finset.range W, x i j (c₁ : ℕ) * x i j (c₂ : ℕ)

/-- Embedding of `style_loss(style_img, combination_img)`.  The normalizer
uses the constants the code reads: `channels = 3` (hardcoded) and
`size = img_height * img_width`, the generated image's dimensions — not the
dimensions `H × W × C` of the activation tensors being compared. -/
def style_loss (img_height img_width : ℕ) (H W C : ℕ)
    (style_img combination_img : ℕ → ℕ → ℕ → ℚ) : ℚ :=
  (∑ c₁ : Fin C, ∑ c₂ : Fin C,
      (gram_matrix H W C style_img c₁ c₂ - gram_matrix H W C combination_img c₁ c₂) ^ 2)
    / (4 * (3 : ℚ) ^ 2 * ((img_height * img_width : ℕ) : ℚ) ^ 2)

/-- The per-layer style loss as the claim words it: the Gram-difference sum
normalized by `4 × channels² × spatial-size²` where `channels = C` and
`spatial-size = H·W` are those of the feature tensors being compared.  This
follows the claim's words, to be compared with `style_loss` from the code. -/
def style_loss_claimed (H W C : ℕ) (style_img combination_img : ℕ → ℕ → ℕ → ℚ) : ℚ :=
  (∑ c₁ : Fin C, ∑ c₂ : Fin C,
      (gram_matrix H W C style_img c₁ c₂ - gram_matrix H W C combination_img c₁ c₂) ^ 2)
    / (4 * (C : ℚ) ^ 2 * ((H * W : ℕ) : ℚ) ^ 2)

/-- Embedding of `total_variation_loss(x)` for a generated image of shape
`1 × img_height × img_width × 3` (the batch dimension is dropped):
`a` collects squared vertical neighbour differences and `b` squared
horizontal neighbour differences over the image minus its last row and
column, and the result is `tf.reduce_sum(tf.pow(a + b, 1.25))`. -/
noncomputable def total_variation_loss (img_height img_width : ℕ)
    (x : ℕ → ℕ → Fin 3 → ℚ) : ℝ :=
  ∑ i ∈ Finset.range (img_height - 1), ∑ j ∈ Finset.range (img_width - 1), ∑ c : Fin 3,
    (((x i j c - x (i + 1) j c) ^ 2 + (x i j c - x i (j + 1) c) ^ 2 : ℚ) : ℝ) ^ (1.25 : ℝ)

/-- The five style layers of the notebook. -/
def style_layer_names : List String :=
  ["block1_conv1", "block2_conv1", "block3_conv1", "block4_conv1", "block5_conv1"]

/-- The content layer of the notebook. -/
def content_layer_name : String := "block5_conv2"

/-- Weight `total_variation_weight = 1e-6`. -/
def total_variation_weight : ℚ := 1 / 1000000

/-- Weight `style_weight = 1e-6`. -/
def style_weight : ℚ := 1 / 1000000

/-- Weight `content_weight = 2.5e-8`. -/
def content_weight : ℚ := 25 / 1000000000

/-- Embedding of `compute_loss(combination_image, base_image,
style_reference_image)`.  The VGG19 `feature_extractor` is external
pretrained code, so the activations it returns are parameters: `contentDims`,
`base_feats` and `comb_content_feats` give the shape and values of the
content layer's activations for the base and combination images, and
`styleDims`, `style_feats`, `comb_style_feats` give, for each of the five
style layers, the shape and the activations of the style-reference and
combination images.  The loss starts at zero, adds the weighted content
loss, adds `(style_weight / len(style_layer_names)) * style_loss` for each
style layer, and finally adds the weighted total variation loss of the
combination image. -/
noncomputable def compute_loss (img_height img_width : ℕ)
    (contentDims : ℕ × ℕ × ℕ) (base_feats comb_content_feats : ℕ → ℕ → ℕ → ℚ)
    (styleDims : Fin 5 → ℕ × ℕ × ℕ)
    (style_feats comb_style_feats : Fin 5 → ℕ → ℕ → ℕ → ℚ)
    (combination_image : ℕ → ℕ → Fin 3 → ℚ) : ℝ :=
  ((content_weight * content_loss contentDims.1 contentDims.2.1 contentDims.2.2
      base_feats comb_content_feats : ℚ) : ℝ)
  + ((∑ l : Fin 5, (style_weight / (style_layer_names.length : ℚ)) *
        style_loss img_height img_width
          (styleDims l).1 (styleDims l).2.1 (styleDims l).2.2
          (style_feats l) (comb_style_feats l) : ℚ) : ℝ)
  + ((total_variation_weight : ℚ) : ℝ) *
      total_variation_loss img_height img_width combination_image

/-- Embedding of `deprocess_image(img)` for an image of shape
`img_height × img_width × 3`: add the ImageNet mean pixel value per channel
(103.939, 116.779, 123.68), reverse the channel order (BGR to RGB), clip to
`[0, 255]`, and convert to an unsigned byte (truncation, which on the
clipped non-negative values is the floor). -/
def deprocess_image (img : ℕ → ℕ → Fin 3 → ℚ) : ℕ → ℕ → Fin 3 → ℤ :=
  fun i j c =>
    let mean : Fin 3 → ℚ := fun ch =>
      if ch = 0 then 103.939 else if ch = 1 then 116.779 else 123.68
    let shifted : ℕ → ℕ → Fin 3 → ℚ := fun i j ch => img i j ch + mean ch
    let reversed : ℕ → ℕ → Fin 3 → ℚ := fun i j ch => shifted i j ch.rev
    ⌊min 255 (max 0 (reversed i j c))⌋

/-- Modelled from the keras library semantics of
`keras.optimizers.schedules.ExponentialDecay(initial_learning_rate=100.0,
decay_steps=100, decay_rate=0.96)`: with the default `staircase=False`, the
learning rate at step `n` is `initial_learning_rate * decay_rate ^ (n /
decay_steps)` with real-valued (not integer) exponent. -/
noncomputable def learning_rate (n : ℕ) : ℝ :=
  100.0 * (0.96 : ℝ) ^ ((n : ℝ) / 100)

/-- The learning-rate schedule as the claim words it: constant within each
100-step window, `100.0 × 0.96 ^ floor(n / 100)`.  This follows the claim's
words, to be compared with `learning_rate` from the code. -/
noncomputable def learning_rate_claimed (n : ℕ) : ℝ :=
  100.0 * (0.96 : ℝ) ^ (n / 100)

/-- Budget `iterations = 4000`, the fixed iteration count of the descent loop. -/
def iterations : ℕ := 4000

/-- The filename of the snapshot written at iteration `i`:
`f"combination_image_at_iteration_\x7bi\x7d.png"`. -/
def snapshot_name (i : ℕ) : String :=
  "combination_image_at_iteration_" ++ toString i ++ ".png"

/-- Embedding of the descent loop `for i in range(1, iterations + 1)`, run
for `n` iterations over an arbitrary state type `α` (the combination image)
and an arbitrary per-iteration update `step` (one gradient computation plus
`optimizer.apply_gradients`, whose numerical behaviour the loop never
inspects).  The fold threads the current image, counts how many update steps
were applied, and records, for each iteration `i` with `i % 100 = 0`, the
pair of the snapshot filename and the image saved at that point.  The loop
body has no break, return or condition that could end the iteration early. -/
def loop_body {α : Type} (step : ℕ → α → α)
    (s : α × ℕ × List (ℕ × String × α)) (i : ℕ) : α × ℕ × List (ℕ × String × α) :=
  let x := step i s.1
  (x, s.2.1 + 1,
    if i % 100 = 0 then s.2.2 ++ [(i, snapshot_name i, x)] else s.2.2)

/-- The descent loop run for `n` iterations: fold `loop_body` over the
iteration indices `1, …, n` (the code's `range(1, iterations + 1)`). -/
def run_for (n : ℕ) {α : Type} (step : ℕ → α → α) (x₀ : α) :
    α × ℕ × List (ℕ × String × α) :=
  (List.range' 1 n).foldl (loop_body step) (x₀, 0, [])

/-- The state after iterations `1, …, i` of the descent loop. -/
def stepsTo {α : Type} (step : ℕ → α → α) (x₀ : α) (i : ℕ) : α :=
  (List.range' 1 i).foldl (fun a k => step k a) x₀

/-- The full optimization run: `run_for` at the notebook's fixed budget. -/
def run {α : Type} (step : ℕ → α → α) (x₀ : α) : α × ℕ × List (ℕ × String × α) :=
  run_for iterations step x₀

/-- The three image tensors of the run: `base_image` and
`style_reference_image` are plain preprocessed arrays, and
`combination_image` is the sole `tf.Variable`. -/
structure RunState (α : Type) where
  base_image : α
  style_reference_image : α
  combination_image : α

/-- One iteration of the descent loop acting on the three images:
`compute_loss_and_grads` reads all three tensors, but
`optimizer.apply_gradients([(grads, combination_image)])` updates only the
variable `combination_image`; the update value may depend on the whole
state (gradients are a function of all three images), embedded as an
arbitrary function `upd`. -/
def train_step {α : Type} (upd : RunState α → α) (s : RunState α) : RunState α :=
  { s with combination_image := upd s }

/-- The all-zero feature tensor, used as a concrete evaluation input. -/
def feat_zero : ℕ → ℕ → ℕ → ℚ := fun _ _ _ => 0

/-- A concrete feature tensor that is `1` on channel `0` and `0` elsewhere. -/
def feat_unit : ℕ → ℕ → ℕ → ℚ := fun _ _ c => if c = 0 then 1 else 0

/-- The constant-three feature tensor, used as a concrete evaluation input. -/
def feat_three : ℕ → ℕ → ℕ → ℚ := fun _ _ _ => 3

/-- A concrete 2×2 image that is `0` everywhere except at the bottom-right
pixel `(1, 1)`, where it is `1` on every channel. -/
def corner_image : ℕ → ℕ → Fin 3 → ℚ := fun i j _ => if i = 1 ∧ j = 1 then 1 else 0

/-- A concrete flat-color image: every pixel is the same non-gray color
`(200, 30, 40)` — the channels differ from one another, but no two pixels
differ. -/
def solid_image : ℕ → ℕ → Fin 3 → ℚ := fun _ _ c =>
  if c = 0 then 200 else if c = 1 then 30 else 40

/-- A concrete image whose first row is `0` and all later rows are `1`. -/
def step_image : ℕ → ℕ → Fin 3 → ℚ := fun i _ _ => if i = 0 then 0 else 1

/- Helper lemmas shared by the claim theorems. -/

lemma content_loss_eq_zero_iff (H W C : ℕ) (a b : ℕ → ℕ → ℕ → ℚ) :
    content_loss H W C a b = 0 ↔
      ∀ i < H, ∀ j < W, ∀ c < C, b i j c = a i j c := by
  constructor
  · intro h i hi j hj c hc
    have h1 := (Finset.sum_eq_zero_iff_of_nonneg fun i _ =>
      Finset.sum_nonneg fun j _ => Finset.sum_nonneg fun c _ => sq_nonneg _).mp h
    have h2 := (Finset.sum_eq_zero_iff_of_nonneg fun j _ =>
      Finset.sum_nonneg fun c _ => sq_nonneg _).mp (h1 i (Finset.mem_range.mpr hi))
    have h3 := (Finset.sum_eq_zero_iff_of_nonneg fun c _ => sq_nonneg _).mp
      (h2 j (Finset.mem_range.mpr hj))
    have h4 := h3 c (Finset.mem_range.mpr hc)
    have h5 := sq_eq_zero_iff.mp h4
    exact sub_eq_zero.mp h5
  · intro h
    refine Finset.sum_eq_zero fun i hi => Finset.sum_eq_zero fun j hj =>
      Finset.sum_eq_zero fun c hc => ?_
    rw [h i (Finset.mem_range.mp hi) j (Finset.mem_range.mp hj) c (Finset.mem_range.mp hc)]
    ring

lemma content_loss_nonneg (H W C : ℕ) (a b : ℕ → ℕ → ℕ → ℚ) :
    0 ≤ content_loss H W C a b :=
  Finset.sum_nonneg fun _ _ => Finset.sum_nonneg fun _ _ =>
    Finset.sum_nonneg fun _ _ => sq_nonneg _

lemma style_loss_nonneg (ih iw H W C : ℕ) (s c : ℕ → ℕ → ℕ → ℚ) :
    0 ≤ style_loss ih iw H W C s c := by
  refine div_nonneg ?_ (by positivity)
  exact Finset.sum_nonneg fun _ _ => Finset.sum_nonneg fun _ _ => sq_nonneg _

lemma total_variation_loss_nonneg (ih iw : ℕ) (x : ℕ → ℕ → Fin 3 → ℚ) :
    0 ≤ total_variation_loss ih iw x := by
  refine Finset.sum_nonneg fun i _ => Finset.sum_nonneg fun j _ =>
    Finset.sum_nonneg fun c _ => ?_
  exact Real.rpow_nonneg (by positivity) _

lemma floor_clip_mem (q : ℚ) :
    0 ≤ ⌊min 255 (max 0 q)⌋ ∧ ⌊min 255 (max 0 q)⌋ ≤ 255 := by
  constructor
  · exact Int.floor_nonneg.mpr (le_min (by norm_num) (le_max_left _ _))
  · have h := Int.floor_le_floor (min_le_left (255 : ℚ) (max 0 q))
    simpa using h

/-- Claim C5: the content loss of two equally-shaped activation tensors is
zero exactly when they agree everywhere in range, is strictly positive when
they differ at some in-range index, and applies no normalization by tensor
size: a uniform per-entry difference of `d` yields the raw sum
`(H·W·C) · d²`, growing linearly with the number of entries. -/
theorem claim_C5 (H W C : ℕ) (a b : ℕ → ℕ → ℕ → ℚ) (d : ℚ) :
    (content_loss H W C a b = 0 ↔ ∀ i < H, ∀ j < W, ∀ c < C, b i j c = a i j c) ∧
    ((∃ i, i < H ∧ ∃ j, j < W ∧ ∃ c, c < C ∧ b i j c ≠ a i j c) →
      0 < content_loss H W C a b) ∧
    ((∀ i < H, ∀ j < W, ∀ c < C, b i j c - a i j c = d) →
      content_loss H W C a b = ((H * W * C : ℕ) : ℚ) * d ^ 2) := by
  refine ⟨content_loss_eq_zero_iff H W C a b, ?_, ?_⟩
  · rintro ⟨i, hi, j, hj, c, hc, hne⟩
    refine lt_of_le_of_ne (content_loss_nonneg H W C a b) fun h0 => ?_
    exact hne ((content_loss_eq_zero_iff H W C a b).mp h0.symm i hi j hj c hc)
  · intro h
    unfold content_loss
    calc (∑ i ∈ Finset.range H, ∑ j ∈ Finset.range W, ∑ c ∈ Finset.range C,
            (b i j c - a i j c) ^ 2)
        = ∑ _i ∈ Finset.range H, ∑ _j ∈ Finset.range W, ∑ _c ∈ Finset.range C, d ^ 2 :=
          Finset.sum_congr rfl fun i hi => Finset.sum_congr rfl fun j hj =>
            Finset.sum_congr rfl fun c hc => by
              rw [h i (Finset.mem_range.mp hi) j (Finset.mem_range.mp hj)
                c (Finset.mem_range.mp hc)]
      _ = ((H * W * C : ℕ) : ℚ) * d ^ 2 := by
          simp only [Finset.sum_const, Finset.card_range, nsmul_eq_mul]
          push_cast
          ring

/-- Witness for claim C5 at a concrete input: with shape `2 × 1 × 1`, the
all-zero and all-three tensors give a strictly positive content loss equal
to `2 · 3² = 18`, the unnormalized sum of squared differences. -/
theorem claim_C5_witness :
    0 < content_loss 2 1 1 feat_zero feat_three ∧
    content_loss 2 1 1 feat_zero feat_three = ((2 * 1 * 1 : ℕ) : ℚ) * 3 ^ 2 :=
  ⟨(claim_C5 2 1 1 feat_zero feat_three 3).2.1
      ⟨0, by norm_num, 0, by norm_num, 0, by norm_num, by norm_num [feat_zero, feat_three]⟩,
   (claim_C5 2 1 1 feat_zero feat_three 3).2.2
      (fun i _ j _ c _ => by norm_num [feat_zero, feat_three])⟩

/-- Claim C6: every channel value produced by `deprocess_image` lies within
the display encoding's bounds, `0` to `255` inclusive, for any input. -/
theorem claim_C6 (img : ℕ → ℕ → Fin 3 → ℚ) (i j : ℕ) (c : Fin 3) :
    0 ≤ deprocess_image img i j c ∧ deprocess_image img i j c ≤ 255 := by
  unfold deprocess_image
  exact floor_clip_mem _

/-- Claim C7: the Gram matrix of any feature tensor is symmetric: it equals
its own transpose. -/
theorem claim_C7 (H W C : ℕ) (x : ℕ → ℕ → ℕ → ℚ) :
    (gram_matrix H W C x).transpose = gram_matrix H W C x := by
  ext c₁ c₂
  simp only [Matrix.transpose_apply, gram_matrix, Matrix.of_apply]
  exact Finset.sum_congr rfl fun i _ => Finset.sum_congr rfl fun j _ => mul_comm _ _

/-- Claim C9: the three loss functions are non-negative on every input, and
since the three weights are non-negative constants, the combined loss
returned by `compute_loss` is non-negative as well. -/
theorem claim_C9 (ih iw : ℕ) (cd : ℕ × ℕ × ℕ) (bF cF : ℕ → ℕ → ℕ → ℚ)
    (sd : Fin 5 → ℕ × ℕ × ℕ) (sF cSF : Fin 5 → ℕ → ℕ → ℕ → ℚ)
    (cimg : ℕ → ℕ → Fin 3 → ℚ) (H W C : ℕ) (a b s c : ℕ → ℕ → ℕ → ℚ) :
    0 ≤ content_loss H W C a b ∧ 0 ≤ style_loss ih iw H W C s c ∧
    0 ≤ total_variation_loss ih iw cimg ∧
    0 ≤ compute_loss ih iw cd bF cF sd sF cSF cimg := by
  refine ⟨content_loss_nonneg H W C a b, style_loss_nonneg ih iw H W C s c,
    total_variation_loss_nonneg ih iw cimg, ?_⟩
  unfold compute_loss
  have h1 : (0 : ℝ) ≤ ((content_weight * content_loss cd.1 cd.2.1 cd.2.2 bF cF : ℚ) : ℝ) := by
    have := mul_nonneg (by norm_num [content_weight] : (0:ℚ) ≤ content_weight)
      (content_loss_nonneg cd.1 cd.2.1 cd.2.2 bF cF)
    exact_mod_cast this
  have h2 : (0 : ℝ) ≤ ((∑ l : Fin 5, (style_weight / (style_layer_names.length : ℚ)) *
      style_loss ih iw (sd l).1 (sd l).2.1 (sd l).2.2 (sF l) (cSF l) : ℚ) : ℝ) := by
    have : (0:ℚ) ≤ ∑ l : Fin 5, (style_weight / (style_layer_names.length : ℚ)) *
        style_loss ih iw (sd l).1 (sd l).2.1 (sd l).2.2 (sF l) (cSF l) :=
      Finset.sum_nonneg fun l _ => mul_nonneg
        (div_nonneg (by norm_num [style_weight]) (Nat.cast_nonneg _))
        (style_loss_nonneg ih iw (sd l).1 (sd l).2.1 (sd l).2.2 (sF l) (cSF l))
    exact_mod_cast this
  have h3 : (0 : ℝ) ≤ ((total_variation_weight : ℚ) : ℝ) *
      total_variation_loss ih iw cimg :=
    mul_nonneg (by norm_num [total_variation_weight]) (total_variation_loss_nonneg ih iw cimg)
  linarith

/-- Claim C10: both `content_loss` and `style_loss` are symmetric in their
two tensor arguments. -/
theorem claim_C10 (ih iw H W C : ℕ) (a b s c : ℕ → ℕ → ℕ → ℚ) :
    content_loss H W C a b = content_loss H W C b a ∧
    style_loss ih iw H W C s c = style_loss ih iw H W C c s := by
  constructor
  · unfold content_loss
    exact Finset.sum_congr rfl fun i _ => Finset.sum_congr rfl fun j _ =>
      Finset.sum_congr rfl fun k _ => by ring
  · unfold style_loss
    congr 1
    exact Finset.sum_congr rfl fun c₁ _ => Finset.sum_congr rfl fun c₂ _ => by ring

/-- Claim C1 counterexample: the per-layer style loss does not normalize by
the feature tensors' own channel count and spatial size.  For 1×1 feature
tensors with 2 channels (and generated-image dimensions 400 × 300), the
code's value differs from the claim's formula: the code divides by
`4 · 3² · (400·300)²` while the claim's words give `4 · 2² · 1²`. -/
theorem claim_C1_counterexample :
    style_loss 400 300 1 1 2 feat_zero feat_unit ≠
      style_loss_claimed 1 1 2 feat_zero feat_unit := by
  unfold style_loss style_loss_claimed gram_matrix feat_zero feat_unit
  simp only [Finset.sum_range_one, Matrix.of_apply, Fin.sum_univ_two,
    Fin.val_zero, Fin.val_one]
  norm_num

/-- Claim C1 amended: the per-layer style loss equals the sum of squared
Gram-matrix differences divided by `4 × channels² × size²` where
`channels = 3` is a hardcoded constant and `size = img_height × img_width`
is the generated image's pixel count — not the dimensions of the feature
tensors being compared — and the total style term of the combined loss is
`style_weight` times the average of the per-layer style losses over the
five style layers. -/
theorem claim_C1_amended (ih iw : ℕ) (cd : ℕ × ℕ × ℕ) (bF cF : ℕ → ℕ → ℕ → ℚ)
    (sd : Fin 5 → ℕ × ℕ × ℕ) (sF cSF : Fin 5 → ℕ → ℕ → ℕ → ℚ)
    (cimg : ℕ → ℕ → Fin 3 → ℚ) :
    (∀ H W C : ℕ, ∀ s c : ℕ → ℕ → ℕ → ℚ, style_loss ih iw H W C s c =
      (∑ c₁ : Fin C, ∑ c₂ : Fin C,
        (gram_matrix H W C s c₁ c₂ - gram_matrix H W C c c₁ c₂) ^ 2)
        / (4 * (3 : ℚ) ^ 2 * ((ih * iw : ℕ) : ℚ) ^ 2)) ∧
    compute_loss ih iw cd bF cF sd sF cSF cimg =
      ((content_weight * content_loss cd.1 cd.2.1 cd.2.2 bF cF : ℚ) : ℝ)
      + ((style_weight * ((∑ l : Fin 5, style_loss ih iw
            (sd l).1 (sd l).2.1 (sd l).2.2 (sF l) (cSF l)) / 5) : ℚ) : ℝ)
      + ((total_variation_weight : ℚ) : ℝ) * total_variation_loss ih iw cimg := by
  refine ⟨fun H W C s c => rfl, ?_⟩
  have key : (∑ l : Fin 5, (style_weight / (style_layer_names.length : ℚ)) *
      style_loss ih iw (sd l).1 (sd l).2.1 (sd l).2.2 (sF l) (cSF l)) =
      style_weight * ((∑ l : Fin 5, style_loss ih iw
        (sd l).1 (sd l).2.1 (sd l).2.2 (sF l) (cSF l)) / 5) := by
    rw [show ((style_layer_names.length : ℕ) : ℚ) = 5 by norm_num [style_layer_names]]
    rw [← Finset.mul_sum]
    ring
  unfold compute_loss
  rw [key]

/-- Claim C2 counterexample: the total variation loss is not strictly
positive for every non-constant image.  The 2×2 image that is `0`
everywhere except at the bottom-right pixel `(1,1)` has two unequal pixel
values, yet its total variation loss is `0`: the loss never compares the
last-row/last-column corner against its neighbours. -/
theorem claim_C2_counterexample :
    total_variation_loss 2 2 corner_image = 0 ∧
      corner_image 0 0 0 ≠ corner_image 1 1 0 := by
  constructor
  · unfold total_variation_loss corner_image
    norm_num [Fin.sum_univ_three, Real.zero_rpow]
  · norm_num [corner_image]

lemma tv_zero_of_no_compared_diff (h w : ℕ) (x : ℕ → ℕ → Fin 3 → ℚ)
    (hnd : ∀ i j : ℕ, ∀ c : Fin 3, i + 1 < h → j + 1 < w →
      x i j c = x (i + 1) j c ∧ x i j c = x i (j + 1) c) :
    total_variation_loss h w x = 0 := by
  unfold total_variation_loss
  refine Finset.sum_eq_zero fun i hi => Finset.sum_eq_zero fun j hj =>
    Finset.sum_eq_zero fun c _ => ?_
  have hi2 : i < h - 1 := Finset.mem_range.mp hi
  have hj2 : j < w - 1 := Finset.mem_range.mp hj
  obtain ⟨h1, h2⟩ := hnd i j c (by omega) (by omega)
  have d1 : x i j c - x (i + 1) j c = 0 := sub_eq_zero.mpr h1
  have d2 : x i j c - x i (j + 1) c = 0 := sub_eq_zero.mpr h2
  rw [d1, d2]
  norm_num [Real.zero_rpow]

/-- Claim C2 amended: the total variation loss is zero for every constant
(flat-color) image — every pixel carries the same color, with no condition
relating the channels to one another — and is strictly positive exactly
when some pair of pixels actually compared by the loss differs: some
vertically or horizontally adjacent pair whose anchor lies inside the image
minus its last row and column.  In particular variation confined to the
uncompared corner region yields zero. -/
theorem claim_C2_amended (h w : ℕ) (x : ℕ → ℕ → Fin 3 → ℚ) :
    ((∀ i j i' j' : ℕ, ∀ c : Fin 3, i < h → j < w → i' < h → j' < w →
        x i j c = x i' j' c) → total_variation_loss h w x = 0) ∧
    (0 < total_variation_loss h w x ↔
      ∃ i j, ∃ c : Fin 3, i + 1 < h ∧ j + 1 < w ∧
        (x i j c ≠ x (i + 1) j c ∨ x i j c ≠ x i (j + 1) c)) := by
  constructor
  · intro hconst
    refine tv_zero_of_no_compared_diff h w x fun i j c hi hj => ?_
    exact ⟨hconst i j (i + 1) j c (by omega) (by omega) (by omega) (by omega),
           hconst i j i (j + 1) c (by omega) (by omega) (by omega) (by omega)⟩
  constructor
  · intro hpos
    by_contra hne
    push_neg at hne
    rw [tv_zero_of_no_compared_diff h w x hne] at hpos
    exact lt_irrefl 0 hpos
  · rintro ⟨i₀, j₀, c₀, hi, hj, hne⟩
    have term_nonneg : ∀ i j (c : Fin 3), (0 : ℝ) ≤
        (((x i j c - x (i + 1) j c) ^ 2 + (x i j c - x i (j + 1) c) ^ 2 : ℚ) : ℝ)
          ^ (1.25 : ℝ) :=
      fun i j c => Real.rpow_nonneg (by positivity) _
    unfold total_variation_loss
    refine Finset.sum_pos'
      (fun i _ => Finset.sum_nonneg fun j _ => Finset.sum_nonneg fun c _ => term_nonneg i j c)
      ⟨i₀, Finset.mem_range.mpr (by omega), ?_⟩
    refine Finset.sum_pos'
      (fun j _ => Finset.sum_nonneg fun c _ => term_nonneg i₀ j c)
      ⟨j₀, Finset.mem_range.mpr (by omega), ?_⟩
    refine Finset.sum_pos' (fun c _ => term_nonneg i₀ j₀ c) ⟨c₀, Finset.mem_univ _, ?_⟩
    have hq : (0 : ℚ) < (x i₀ j₀ c₀ - x (i₀ + 1) j₀ c₀) ^ 2 +
        (x i₀ j₀ c₀ - x i₀ (j₀ + 1) c₀) ^ 2 := by
      rcases hne with hne | hne
      · exact add_pos_of_pos_of_nonneg
          (lt_of_le_of_ne (sq_nonneg _) (Ne.symm (pow_ne_zero 2 (sub_ne_zero.mpr hne))))
          (sq_nonneg _)
      · exact add_pos_of_nonneg_of_pos (sq_nonneg _)
          (lt_of_le_of_ne (sq_nonneg _) (Ne.symm (pow_ne_zero 2 (sub_ne_zero.mpr hne))))
    exact Real.rpow_pos_of_pos (by exact_mod_cast hq) _

/-- Witness for claim C2 amended at concrete inputs: the 2×2 flat-color
image of the non-gray color `(200, 30, 40)` has total variation loss `0`,
and the 2×2 image whose rows are `0` then `1` has strictly positive total
variation loss. -/
theorem claim_C2_witness :
    total_variation_loss 2 2 solid_image = 0 ∧ 0 < total_variation_loss 2 2 step_image :=
  ⟨(claim_C2_amended 2 2 solid_image).1 (fun _ _ _ _ _ _ _ _ _ => rfl),
   (claim_C2_amended 2 2 step_image).2.mpr
     ⟨0, 0, 0, by norm_num, by norm_num, Or.inl (by norm_num [step_image])⟩⟩

/-- Claim C3 counterexample: the learning rate is not constant within a
100-step window.  At step 50 the claimed staircase formula gives
`100.0 × 0.96⁰ = 100`, but the schedule's value is `100.0 × 0.96^0.5 < 100`:
keras `ExponentialDecay` uses a real-valued exponent by default. -/
theorem claim_C3_counterexample : learning_rate 50 ≠ learning_rate_claimed 50 := by
  have hc : learning_rate_claimed 50 = 100 := by
    unfold learning_rate_claimed
    norm_num
  have hlt : learning_rate 50 < 100 := by
    unfold learning_rate
    have h1 : (0.96 : ℝ) ^ (((50 : ℕ) : ℝ) / 100) < 1 :=
      Real.rpow_lt_one (by norm_num) (by norm_num) (by norm_num)
    nlinarith [h1]
  rw [hc]
  exact ne_of_lt hlt

/-- Claim C3 amended: the learning rate decays geometrically but smoothly,
at every step: it starts at `100.0`, satisfies
`learning_rate (n + 100) = 0.96 × learning_rate n` (a 4% decay per 100
steps), and is strictly decreasing at every single step — it is not held
constant within 100-step windows. -/
theorem claim_C3_amended :
    learning_rate 0 = 100 ∧
    (∀ n, learning_rate (n + 100) = 0.96 * learning_rate n) ∧
    (∀ n, learning_rate (n + 1) < learning_rate n) := by
  refine ⟨?_, ?_, ?_⟩
  · unfold learning_rate
    rw [show (((0 : ℕ) : ℝ) / 100) = 0 by norm_num, Real.rpow_zero]
    norm_num
  · intro n
    unfold learning_rate
    have he : ((n + 100 : ℕ) : ℝ) / 100 = (n : ℝ) / 100 + 1 := by push_cast; ring
    rw [he, Real.rpow_add (by norm_num : (0 : ℝ) < 0.96), Real.rpow_one]
    ring
  · intro n
    unfold learning_rate
    have h := Real.rpow_lt_rpow_of_exponent_gt
      (show (0 : ℝ) < 0.96 by norm_num) (show (0.96 : ℝ) < 1 by norm_num)
      (show (n : ℝ) / 100 < ((n + 1 : ℕ) : ℝ) / 100 by push_cast; linarith)
    linarith [h]

lemma range'_one_concat (n : ℕ) : List.range' 1 (n + 1) = List.range' 1 n ++ [n + 1] := by
  rw [List.range'_concat]
  simp [Nat.add_comm]

lemma stepsTo_succ {α : Type} (step : ℕ → α → α) (x₀ : α) (n : ℕ) :
    stepsTo step x₀ (n + 1) = step (n + 1) (stepsTo step x₀ n) := by
  unfold stepsTo
  rw [range'_one_concat, List.foldl_append]
  rfl

lemma run_for_spec {α : Type} (step : ℕ → α → α) (x₀ : α) (n : ℕ) :
    run_for n step x₀ = (stepsTo step x₀ n, n,
      ((List.range' 1 n).filter (fun i => i % 100 = 0)).map
        (fun i => (i, snapshot_name i, stepsTo step x₀ i))) := by
  induction n with
  | zero => rfl
  | succ n ih =>
    unfold run_for at ih ⊢
    rw [range'_one_concat, List.foldl_append, List.filter_append, List.map_append, ih]
    simp only [List.foldl_cons, List.foldl_nil, List.filter_cons, List.filter_nil,
      decide_eq_true_eq]
    unfold loop_body
    by_cases h : (n + 1) % 100 = 0
    · simp [h, stepsTo_succ]
    · simp [h, stepsTo_succ]

/-- Claim C4: for every per-iteration update function (so for every possible
behaviour of the loss and gradients — no loss value or divergence can alter
the control flow) and every initial image, the run applies exactly
`iterations = 4000` update steps, terminating only by exhausting that
budget; it records a snapshot exactly at the iterations `i` with
`i % 100 = 0`, each snapshot holding the image current at iteration `i`
under the filename `snapshot_name i`, which is determined by `i`. -/
theorem claim_C4 {α : Type} (step : ℕ → α → α) (x₀ : α) :
    (run step x₀).2.1 = 4000 ∧
    (run step x₀).2.2 = ((List.range' 1 iterations).filter (fun i => i % 100 = 0)).map
      (fun i => (i, snapshot_name i, stepsTo step x₀ i)) ∧
    ∀ i : ℕ, (∃ img : α, (i, snapshot_name i, img) ∈ (run step x₀).2.2) ↔
      (1 ≤ i ∧ i ≤ iterations ∧ i % 100 = 0) := by
  unfold run
  rw [run_for_spec]
  refine ⟨rfl, rfl, fun i => ?_⟩
  constructor
  · rintro ⟨img, hmem⟩
    rcases List.mem_map.mp hmem with ⟨a, ha, heq⟩
    have hai : a = i := congrArg Prod.fst heq
    subst hai
    rcases List.mem_filter.mp ha with ⟨hr, hp⟩
    rcases List.mem_range'_1.mp hr with ⟨h1, h2⟩
    exact ⟨h1, by omega, by simpa using hp⟩
  · rintro ⟨h1, h2, h3⟩
    refine ⟨stepsTo step x₀ i, List.mem_map.mpr ⟨i, ?_, rfl⟩⟩
    exact List.mem_filter.mpr ⟨List.mem_range'_1.mpr ⟨h1, by omega⟩, by simpa using h3⟩

/-- Witness for claim C4 at a concrete instantiation (counting steps over
`α = ℕ`): the loop applies exactly 4000 steps, and iteration 100 has a
snapshot recorded. -/
theorem claim_C4_witness :
    (run (fun _ n => n + 1) (0 : ℕ)).2.1 = 4000 ∧
    (∃ img : ℕ, (100, snapshot_name 100, img) ∈ (run (fun _ n => n + 1) (0 : ℕ)).2.2) :=
  ⟨(claim_C4 (fun _ n => n + 1) 0).1,
   ((claim_C4 (fun _ n => n + 1) 0).2.2 100).mpr
     (by norm_num [iterations])⟩

/-- Claim C8: across the entire run, each descent step mutates only the
combination image: for every update function, every starting state, and
every iteration count, the base (content) image and the style-reference
image of the state reached after that many iterations equal their initial
values. -/
theorem claim_C8 {α : Type} (upd : ℕ → RunState α → α) (s₀ : RunState α) (i : ℕ) :
    (stepsTo (fun k s => train_step (upd k) s) s₀ i).base_image = s₀.base_image ∧
    (stepsTo (fun k s => train_step (upd k) s) s₀ i).style_reference_image =
      s₀.style_reference_image := by
  induction i with
  | zero => exact ⟨rfl, rfl⟩
  | succ n ih =>
    rw [stepsTo_succ]
    exact ih

end StyleTransfer
